import Mathlib

/-!
Verification development for the loudness estimator of the jumpcutter repository,
embedded from `src/src/entry-points/content/VolumeFilter/VolumeFilterNode.ts`
(the `VolumeFilterNode` wrapper, the `SingleChannelRingBuffer`, and the
`VolumeFilterProcessor` worklet processor).

Modelling conventions:
* JS `number` (float64) and `Float32Array` element (float32) arithmetic is modelled
  exactly over `ℚ`.  `Math.sqrt` is modelled by `Real.sqrt` on the cast to `ℝ`.
* `Option` models JS partiality: an out-of-range typed-array read yields
  `undefined` (modelled `none`), and a computation that would produce a
  non-finite float (`NaN`/`Infinity`, e.g. division by a non-positive window
  length, or arithmetic on an `undefined` read) is modelled by propagating
  `none` for the whole `process` call.  Theorems about normal operation
  condition on a `some` result.
* Throwing a `RangeError` (development builds only) is modelled with `Except`.
* The process-global `devErrorShown` flag and the `console.error` diagnostic of
  development builds are modelled by explicit state passing; the number of
  emitted diagnostics is counted.
-/

/-- Constant `SAMPLES_PER_QUANTUM` from the source (the host block size the
development build asserts on). -/
def SAMPLES_PER_QUANTUM : ℕ := 128

/-- Constant `DEFAULT_MAX_NUM_CHANNELS` from the source. -/
def DEFAULT_MAX_NUM_CHANNELS : ℕ := 32

/-- Model of JS `Math.round`: rounds half toward positive infinity. -/
def jsRound (x : ℚ) : ℤ := ⌊x + 1 / 2⌋

/-- Model of the JS `%` operator on integers (remainder truncated toward zero:
the result takes the sign of the dividend).  The source only applies it with a
positive divisor; the divisor-zero case (JS `NaN`) is guarded at the call site. -/
def jsRem (a b : ℤ) : ℤ := if 0 ≤ a then a % b else -(-a % b)

/-- Function `windowLengthNumSecondsToSamples` from the source:
`Math.round(numSeconds * sampleRate)`.  `sampleRate` is a global of the worklet
scope; it is passed explicitly here. -/
def windowLengthNumSecondsToSamples (sampleRate numSeconds : ℚ) : ℤ :=
  jsRound (numSeconds * sampleRate)

/-- State of `class SingleChannelRingBuffer extends Float32Array`:
the array contents (`data`, of fixed length) and the private write cursor
`_lastSampleI`. -/
structure SingleChannelRingBuffer where
  data : List ℚ
  lastSampleI : ℤ
deriving DecidableEq, Repr

/-- Constructor `new SingleChannelRingBuffer(length)`: a zero-initialized
`Float32Array` of the given length, with `_lastSampleI = length - 1`. -/
def mkSingleChannelRingBuffer (length : ℕ) : SingleChannelRingBuffer :=
  { data := List.replicate length 0, lastSampleI := (length : ℤ) - 1 }

/-- Method `SingleChannelRingBuffer.push`: increment `_lastSampleI`, wrap it to
`0` once it reaches `length`, then write `val` at the cursor.  A typed-array
write at a negative index is silently ignored in JS, hence the `0 ≤ i` guard
(unreachable from the constructor, which keeps the cursor in range). -/
def SingleChannelRingBuffer.push (b : SingleChannelRingBuffer) (val : ℚ) :
    SingleChannelRingBuffer :=
  let i := b.lastSampleI + 1
  let i := if (b.data.length : ℤ) ≤ i then 0 else i
  { data := if 0 ≤ i then b.data.set i.toNat val else b.data,
    lastSampleI := i }

/-- Method `SingleChannelRingBuffer.getReverse` as it behaves in production
builds (`IS_DEV_MODE` false): read `this[(_lastSampleI - depth + length) % length]`.
With `length = 0` the JS `%` yields `NaN` and the read gives `undefined`; with a
negative JS remainder the typed-array read also gives `undefined`.  Both are
modelled as `none`. -/
def SingleChannelRingBuffer.getReverse (b : SingleChannelRingBuffer) (depth : ℤ) :
    Option ℚ :=
  if b.data.length = 0 then none
  else
    let idx := jsRem (b.lastSampleI - depth + b.data.length) b.data.length
    if 0 ≤ idx then b.data[idx.toNat]? else none

/-- Method `SingleChannelRingBuffer.getReverse` as it behaves in development
builds (`IS_DEV_MODE` true): first `if (depth >= this.length) throw new RangeError()`,
then the production read.  `Except.error ()` models the thrown `RangeError`. -/
def SingleChannelRingBuffer.getReverseDev (b : SingleChannelRingBuffer) (depth : ℤ) :
    Except Unit (Option ℚ) :=
  if (b.data.length : ℤ) ≤ depth then Except.error ()
  else Except.ok (b.getReverse depth)

/-- Helper: push a list of values in order (left to right).  Used to phrase
round-trip and warm-up scenarios. -/
def SingleChannelRingBuffer.pushAll (b : SingleChannelRingBuffer) (vals : List ℚ) :
    SingleChannelRingBuffer :=
  vals.foldl SingleChannelRingBuffer.push b

/-- Mutable state of `class VolumeFilterProcessor`: the ring buffer of
per-sample mean squares and the running window sum. -/
structure VolumeFilterProcessorState where
  sampleSquaresRingBuffer : SingleChannelRingBuffer
  currWindowSquaresSum : ℚ
deriving DecidableEq, Repr

/-- The parts of the worklet `options` bag that the processor constructor reads:
`options.parameterData.smoothingWindowLength`, and the optional
`options.processorOptions.maxSmoothingWindowLength` override (spread last). -/
structure VolumeFilterOptions where
  parameterDataSmoothingWindowLength : ℚ
  processorOptionsMaxSmoothingWindowLength : Option ℚ
deriving DecidableEq, Repr

/-- Constructor of `VolumeFilterProcessor`: `_currWindowSquaresSum = 0`;
`maxSmoothingWindowLength` defaults to `parameterData.smoothingWindowLength`
and is overridden by `processorOptions` when present; the ring buffer is sized
to `windowLengthNumSecondsToSamples(maxSmoothingWindowLength)`.  JS
`new Float32Array(n)` throws a `RangeError` for a negative length, modelled as
`none`.  No other validation is performed. -/
def VolumeFilterProcessor.initState (sampleRate : ℚ) (options : VolumeFilterOptions) :
    Option VolumeFilterProcessorState :=
  let maxSmoothingWindowLength :=
    options.processorOptionsMaxSmoothingWindowLength.getD
      options.parameterDataSmoothingWindowLength
  let bufferLength := windowLengthNumSecondsToSamples sampleRate maxSmoothingWindowLength
  if bufferLength < 0 then none
  else some { sampleSquaresRingBuffer := mkSingleChannelRingBuffer bufferLength.toNat,
              currWindowSquaresSum := 0 }

/-- Constructor of `VolumeFilterNode` composed with the processor constructor it
triggers.  In the source the `processorOptions: { maxSmoothingWindowLength }`
block is commented out, so only `parameterData: { smoothingWindowLength }` is
passed: the `maxSmoothingWindowLength` argument is never forwarded and the
processor falls back to the live parameter's initial value. -/
def VolumeFilterNode.create
    (sampleRate maxSmoothingWindowLength smoothingWindowLength : ℚ) :
    Option VolumeFilterProcessorState :=
  VolumeFilterProcessor.initState sampleRate
    { parameterDataSmoothingWindowLength := smoothingWindowLength,
      processorOptionsMaxSmoothingWindowLength := none }

/-- Inner channel loop of `process` for one sample index: sum the squares of
`input[channelI][sampleI]` over all channels and divide by the channel count.
A read past the end of a channel is JS `undefined` (its square is `NaN`),
modelled as `none`. -/
def meanSquareAt (input : List (List ℚ)) (sampleI : ℕ) : Option ℚ :=
  (input.mapM (fun channel => channel[sampleI]?)).map
    (fun samples => (samples.map (fun s => s ^ 2)).sum / (input.length : ℚ))

/-- Body of the per-sample loop of `VolumeFilterProcessor.process` (production
build), acting on one already-computed `allChannelsSampleMeanSquare`:
read the leaving window sample via `getReverse(windowSamples - 1)`, update and
clamp the running sum, push the new mean square, and produce the value whose
square root is written to the output (`currWindowSquaresSum / windowSamples`).
A non-positive `windowSamples` would make the JS division/`Math.sqrt` produce a
non-finite output, modelled as `none`; likewise an `undefined` `getReverse`
read poisons the sum with `NaN`, modelled as `none`. -/
def processSampleStep (smoothingWindowLengthSamples : ℤ)
    (st : VolumeFilterProcessorState) (allChannelsSampleMeanSquare : ℚ) :
    Option (VolumeFilterProcessorState × ℚ) :=
  if smoothingWindowLengthSamples ≤ 0 then none
  else
    match st.sampleSquaresRingBuffer.getReverse (smoothingWindowLengthSamples - 1) with
    | none => none
    | some lastWindowSampleSquare =>
      let s := st.currWindowSquaresSum - lastWindowSampleSquare
        + allChannelsSampleMeanSquare
      let s := max s 0
      let rb := st.sampleSquaresRingBuffer.push allChannelsSampleMeanSquare
      some (⟨rb, s⟩, s / (smoothingWindowLengthSamples : ℚ))

/-- Sample loop of `process` over the given sample indices (in order), threading
the processor state and collecting the pre-square-root output values. -/
def processLoop (smoothingWindowLengthSamples : ℤ) (input : List (List ℚ)) :
    VolumeFilterProcessorState → List ℕ →
    Option (VolumeFilterProcessorState × List ℚ)
  | st, [] => some (st, [])
  | st, sampleI :: rest =>
    match meanSquareAt input sampleI with
    | none => none
    | some mq =>
      match processSampleStep smoothingWindowLengthSamples st mq with
      | none => none
      | some (st1, o) =>
        match processLoop smoothingWindowLengthSamples input st1 rest with
        | none => none
        | some (st2, os) => some (st2, o :: os)

/-- Method `VolumeFilterProcessor.process` (production build).  `input` is
`inputs[0]` (the list of channels); `prevOutput` is whatever the reused output
channel buffer currently holds.  If there are zero channels the call returns
immediately, leaving state and output untouched.  Otherwise the number of
samples is taken from channel 0, the per-sample loop runs, and each written
output sample is `Math.sqrt(currWindowSquaresSum / smoothingWindowLengthSamples)`;
the returned list is the sequence of written samples. -/
noncomputable def process (sampleRate smoothingWindowLength : ℚ)
    (input : List (List ℚ)) (st : VolumeFilterProcessorState)
    (prevOutput : List ℝ) : Option (VolumeFilterProcessorState × List ℝ) :=
  let smoothingWindowLengthSamples :=
    windowLengthNumSecondsToSamples sampleRate smoothingWindowLength
  if input.length = 0 then some (st, prevOutput)
  else
    match processLoop smoothingWindowLengthSamples input st
        (List.range (input.headD []).length) with
    | none => none
    | some (st', presqrts) =>
      some (st', presqrts.map (fun q : ℚ => Real.sqrt (q : ℝ)))

/-- Development-build head of `process`: the one-shot diagnostic guarded by the
process-global `devErrorShown` flag.  Given the flag's current value and one
call's `sampleRate`, live `smoothingWindowLength` parameter and the instance's
`maxSmoothingWindowLength`, it returns the updated flag and the number of
`console.error` diagnostics emitted by this call (0 or 1). -/
def devWindowLengthCheck (sampleRate smoothingWindowLength maxSmoothingWindowLength : ℚ)
    (devErrorShown : Bool) : Bool × ℕ :=
  if windowLengthNumSecondsToSamples sampleRate smoothingWindowLength
      ≠ windowLengthNumSecondsToSamples sampleRate maxSmoothingWindowLength
      ∧ devErrorShown = false
  then (true, 1)
  else (devErrorShown, 0)

/-- Fold of `devWindowLengthCheck` over a sequence of `process` calls, possibly
from different estimator instances (each call carries its own
`sampleRate`, live `smoothingWindowLength` and instance `maxSmoothingWindowLength`),
threading the process-global `devErrorShown` flag and summing the number of
emitted diagnostics. -/
def devWindowLengthCheckRun :
    Bool → List (ℚ × ℚ × ℚ) → Bool × ℕ
  | devErrorShown, [] => (devErrorShown, 0)
  | devErrorShown, call :: rest =>
    let fst := devWindowLengthCheck call.1 call.2.1 call.2.2 devErrorShown
    let rst := devWindowLengthCheckRun fst.1 rest
    (rst.1, fst.2 + rst.2)

/-!
Helper lemmas, followed by one theorem per claim (with witnesses and
counterexamples where applicable).
-/

theorem jsRem_of_nonneg {a b : ℤ} (h : 0 ≤ a) : jsRem a b = a % b := by
  simp [jsRem, h]

/-- C7: calling `process` with zero channels is a pass-through: the processor
state and the previously produced output block are returned unchanged, and the
call returns normally (no error). -/
theorem c7_zero_channel_pass_through
    (sampleRate smoothingWindowLength : ℚ) (st : VolumeFilterProcessorState)
    (prevOutput : List ℝ) :
    process sampleRate smoothingWindowLength [] st prevOutput = some (st, prevOutput) := rfl

/-- C5 counterexample: the claim says every development-build call violating
`0 ≤ depth < capacity` throws a `RangeError`, but a call with `depth = -1 < 0`
on a buffer of capacity 2 returns normally (the guard only checks the upper
bound). -/
theorem c5_counterexample_negative_depth_no_throw :
    (-1 : ℤ) < 0 ∧
    (mkSingleChannelRingBuffer 2).getReverseDev (-1) = Except.ok (some 0) := by
  exact ⟨by decide, rfl⟩

/-- C5 amended: in development builds `getReverse` throws a `RangeError`
exactly when `depth ≥ capacity`; for any `depth < capacity` — including
negative depths, which violate the documented precondition — it returns
normally with the production read. -/
theorem c5_dev_range_check (b : SingleChannelRingBuffer) (depth : ℤ) :
    (b.getReverseDev depth = Except.error () ↔ (b.data.length : ℤ) ≤ depth)
    ∧ (depth < (b.data.length : ℤ) →
        b.getReverseDev depth = Except.ok (b.getReverse depth)) := by
  constructor
  · rw [SingleChannelRingBuffer.getReverseDev]
    split
    · simp_all
    · simp_all
  · intro h
    rw [SingleChannelRingBuffer.getReverseDev, if_neg (by omega)]

/-- C5 witness: concrete development-build calls on a capacity-2 buffer —
`depth = 5` throws, `depth = 1` returns the production read. -/
theorem c5_dev_range_check_witness :
    (mkSingleChannelRingBuffer 2).getReverseDev 5 = Except.error ()
    ∧ (mkSingleChannelRingBuffer 2).getReverseDev 1
        = Except.ok ((mkSingleChannelRingBuffer 2).getReverse 1) :=
  ⟨(c5_dev_range_check (mkSingleChannelRingBuffer 2) 5).1.mpr (by decide),
   (c5_dev_range_check (mkSingleChannelRingBuffer 2) 1).2 (by decide)⟩

/-- C6 counterexample: the claim says constructing with
`initialWindowLength = 0.03 > maxWindowLength = 0.02` must fail with a
`ConfigurationError`, but the construction succeeds: the source performs no
validation at all (and does not even forward `maxSmoothingWindowLength`
to the processor). -/
theorem c6_counterexample_mismatched_construction_succeeds :
    (2 : ℚ) / 100 < 3 / 100 ∧
    (VolumeFilterNode.create 48000 (2 / 100) (3 / 100)).isSome = true := by
  refine ⟨by norm_num, ?_⟩
  have h : windowLengthNumSecondsToSamples 48000 (3 / 100) = 1440 := by
    norm_num [windowLengthNumSecondsToSamples, jsRound]
  rw [VolumeFilterNode.create, VolumeFilterProcessor.initState]
  simp only [Option.getD_none, h]
  norm_num

/-- C6 amended: construction never validates the window lengths and cannot
fail with a `ConfigurationError`: whenever the ring-buffer length computed
from `smoothingWindowLength` is non-negative the construction succeeds, and
the result is entirely independent of the `maxSmoothingWindowLength`
argument (which is silently dropped). -/
theorem c6_construction_unvalidated
    (sampleRate maxSmoothingWindowLength smoothingWindowLength : ℚ)
    (h : 0 ≤ windowLengthNumSecondsToSamples sampleRate smoothingWindowLength) :
    (VolumeFilterNode.create sampleRate maxSmoothingWindowLength
        smoothingWindowLength).isSome = true
    ∧ ∀ other : ℚ,
        VolumeFilterNode.create sampleRate maxSmoothingWindowLength smoothingWindowLength
          = VolumeFilterNode.create sampleRate other smoothingWindowLength := by
  constructor
  · rw [VolumeFilterNode.create, VolumeFilterProcessor.initState]
    simp only [Option.getD_none]
    rw [if_neg (by omega)]
    rfl
  · intro other
    rfl

/-- C6 witness: the construction of concrete scenario C
(`initialWindowLength = 0.03`, `maxWindowLength = 0.02`) succeeds. -/
theorem c6_construction_unvalidated_witness :
    (VolumeFilterNode.create 48000 (2 / 100) (3 / 100)).isSome = true :=
  (c6_construction_unvalidated 48000 (2 / 100) (3 / 100)
    (by norm_num [windowLengthNumSecondsToSamples, jsRound])).1

theorem devWindowLengthCheckRun_le (calls : List (ℚ × ℚ × ℚ)) :
    ∀ devErrorShown : Bool,
      (devWindowLengthCheckRun devErrorShown calls).2
        ≤ if devErrorShown then 0 else 1 := by
  induction calls with
  | nil =>
    intro s
    cases s <;> simp [devWindowLengthCheckRun]
  | cons c rest ih =>
    intro s
    rw [devWindowLengthCheckRun]
    cases s with
    | true =>
      have hc : devWindowLengthCheck c.1 c.2.1 c.2.2 true = (true, 0) := by
        rw [devWindowLengthCheck]
        rw [if_neg (by simp)]
      rw [hc]
      have := ih true
      simpa using this
    | false =>
      rw [devWindowLengthCheck]
      split
      · have := ih true
        simp only [if_true] at this
        simpa using Nat.add_le_add_left this 1
      · have := ih false
        simpa using this

/-- C8: across any sequence of `process` calls in a development build — from
any number of estimator instances, with any sample rates and window-length
parameters — the window-samples mismatch diagnostic is emitted at most once
per process lifetime (the process-global `devErrorShown` flag starts `false`),
even if the mismatch recurs. -/
theorem c8_dev_error_logged_at_most_once (calls : List (ℚ × ℚ × ℚ)) :
    (devWindowLengthCheckRun false calls).2 ≤ 1 := by
  simpa using devWindowLengthCheckRun_le calls false

theorem getReverse_pos_def (b : SingleChannelRingBuffer) (depth : ℤ)
    (hne : b.data.length ≠ 0) :
    b.getReverse depth =
      if 0 ≤ jsRem (b.lastSampleI - depth + b.data.length) b.data.length
      then b.data[(jsRem (b.lastSampleI - depth + b.data.length) b.data.length).toNat]?
      else none := by
  rw [SingleChannelRingBuffer.getReverse, if_neg hne]

/-- C10 counterexample: the claim says production `getReverse` returns the
element at index `(_lastSampleI − depth + k) mod k` for every depth, wrapping
for `depth ≥ k`; but on a fresh capacity-3 buffer the call with `depth = 6`
yields the JS remainder `-1`, so the typed-array read returns `undefined`
(`none`) even though the mathematical-mod slot holds a value. -/
theorem c10_counterexample_deep_read_undefined :
    (mkSingleChannelRingBuffer 3).getReverse 6 = none
    ∧ (mkSingleChannelRingBuffer 3).data[
        (((mkSingleChannelRingBuffer 3).lastSampleI - 6 + 3) % 3).toNat]? = some 0 := by
  exact ⟨rfl, rfl⟩

/-- C10 amended: in production builds `getReverse` never throws for any
integer depth, and for every `depth ≤ _lastSampleI + capacity` (in particular
for all `capacity ≤ depth` up to that bound, and for all negative depths) the
JS truncated remainder is non-negative and a stored element is returned.
Beyond that bound the behaviour splits on divisibility: when `capacity`
divides `_lastSampleI - depth` the JS remainder is `-0`, which indexes slot 0,
so the stored element at slot 0 is returned; otherwise the remainder is
negative and the typed-array read yields `undefined` rather than a stored
value. -/
theorem c10_production_getReverse_wraps (b : SingleChannelRingBuffer) (depth : ℤ)
    (h0 : 0 ≤ b.lastSampleI) (h1 : b.lastSampleI < (b.data.length : ℤ)) :
    (depth ≤ b.lastSampleI + b.data.length → (b.getReverse depth).isSome = true)
    ∧ (b.lastSampleI + (b.data.length : ℤ) < depth →
        ((b.data.length : ℤ) ∣ (b.lastSampleI - depth) →
          b.getReverse depth = b.data[0]?)
        ∧ (¬ (b.data.length : ℤ) ∣ (b.lastSampleI - depth) →
          b.getReverse depth = none)) := by
  have hlenpos : 0 < (b.data.length : ℤ) := lt_of_le_of_lt h0 h1
  have hne : b.data.length ≠ 0 := by exact_mod_cast hlenpos.ne'
  constructor
  · intro hd
    rw [getReverse_pos_def b depth hne]
    have hlhs : 0 ≤ b.lastSampleI - depth + b.data.length := by omega
    rw [jsRem_of_nonneg hlhs]
    have hmod0 : 0 ≤ (b.lastSampleI - depth + b.data.length) % (b.data.length : ℤ) :=
      Int.emod_nonneg _ (by exact_mod_cast hne)
    rw [if_pos hmod0]
    have hmodlt : (b.lastSampleI - depth + b.data.length) % (b.data.length : ℤ)
        < (b.data.length : ℤ) := Int.emod_lt_of_pos _ hlenpos
    have htoNat : ((b.lastSampleI - depth + b.data.length) % (b.data.length : ℤ)).toNat
        < b.data.length := by omega
    rw [List.getElem?_eq_getElem htoNat]
    rfl
  · intro hd
    have hlhs : b.lastSampleI - depth + b.data.length < 0 := by omega
    rw [getReverse_pos_def b depth hne]
    have hrem : jsRem (b.lastSampleI - depth + b.data.length) b.data.length
        = -(-(b.lastSampleI - depth + b.data.length) % (b.data.length : ℤ)) := by
      rw [jsRem, if_neg (by omega)]
    rw [hrem]
    constructor
    · intro hdvd
      have hdvd2 : (b.data.length : ℤ) ∣ b.lastSampleI - depth + b.data.length :=
        dvd_add hdvd (dvd_refl _)
      have hz : -(b.lastSampleI - depth + b.data.length) % (b.data.length : ℤ) = 0 :=
        Int.emod_eq_zero_of_dvd (dvd_neg.mpr hdvd2)
      rw [hz, neg_zero, if_pos le_rfl, Int.toNat_zero]
    · intro hndvd
      have hmod0 : 0 ≤ -(b.lastSampleI - depth + b.data.length) % (b.data.length : ℤ) :=
        Int.emod_nonneg _ (by exact_mod_cast hne)
      have hmodne : -(b.lastSampleI - depth + b.data.length) % (b.data.length : ℤ) ≠ 0 := by
        intro hz
        have hdvd2 : (b.data.length : ℤ) ∣ -(b.lastSampleI - depth + b.data.length) :=
          Int.dvd_of_emod_eq_zero hz
        have hdvd3 : (b.data.length : ℤ) ∣ b.lastSampleI - depth + b.data.length :=
          dvd_neg.mp hdvd2
        exact hndvd (by simpa using dvd_sub hdvd3 (dvd_refl ((b.data.length : ℤ))))
      rw [if_neg (by omega)]

/-- C10 witness: on a fresh capacity-3 buffer, `depth = 4` (within the wrap
bound) returns a stored element; `depth = 8` (beyond the bound, offset
divisible by 3 — JS remainder `-0`) returns the slot-0 element; `depth = 6`
(beyond the bound, offset not divisible) returns `undefined`. -/
theorem c10_production_getReverse_wraps_witness :
    ((mkSingleChannelRingBuffer 3).getReverse 4).isSome = true
    ∧ (mkSingleChannelRingBuffer 3).getReverse 8 = (mkSingleChannelRingBuffer 3).data[0]?
    ∧ (mkSingleChannelRingBuffer 3).getReverse 6 = none :=
  ⟨(c10_production_getReverse_wraps (mkSingleChannelRingBuffer 3) 4
      (by decide) (by decide)).1 (by decide),
   ((c10_production_getReverse_wraps (mkSingleChannelRingBuffer 3) 8
      (by decide) (by decide)).2 (by decide)).1 (by decide),
   ((c10_production_getReverse_wraps (mkSingleChannelRingBuffer 3) 6
      (by decide) (by decide)).2 (by decide)).2 (by decide)⟩

/-- C9: `push` writes the pushed value to exactly one slot (the incremented,
wrapped cursor) and leaves every other slot unchanged; the cursor stays in
`[0, capacity)` whenever it was in range before; immediately after
construction the cursor is `capacity - 1`, so the first push writes slot 0. -/
theorem c9_push_frame (b : SingleChannelRingBuffer) (v : ℚ) (k : ℕ)
    (hlen : b.data.length = k) (hk : 0 < k)
    (h0 : 0 ≤ b.lastSampleI) (h1 : b.lastSampleI < (k : ℤ)) :
    (0 ≤ (b.push v).lastSampleI ∧ (b.push v).lastSampleI < (k : ℤ)
      ∧ (b.push v).data.length = k
      ∧ (b.push v).data[(b.push v).lastSampleI.toNat]? = some v
      ∧ ∀ i : ℕ, i ≠ (b.push v).lastSampleI.toNat → (b.push v).data[i]? = b.data[i]?)
    ∧ ((mkSingleChannelRingBuffer k).lastSampleI = (k : ℤ) - 1
      ∧ ((mkSingleChannelRingBuffer k).push v).lastSampleI = 0
      ∧ ((mkSingleChannelRingBuffer k).push v).data[0]? = some v) := by
  constructor
  · by_cases hc : (b.data.length : ℤ) ≤ b.lastSampleI + 1
    · have hpush : b.push v = ⟨b.data.set (0 : ℕ) v, 0⟩ := by
        simp only [SingleChannelRingBuffer.push, if_pos hc]
        rw [if_pos (by omega)]
        rfl
      rw [hpush]
      refine ⟨le_refl 0, ?_, ?_, ?_, ?_⟩
      · show (0 : ℤ) < (k : ℤ)
        exact_mod_cast hk
      · show (b.data.set 0 v).length = k
        rw [List.length_set, hlen]
      · show (b.data.set 0 v)[(0 : ℤ).toNat]? = some v
        rw [Int.toNat_zero, List.getElem?_set_self (by omega)]
      · intro i hi
        have hi' : (0 : ℕ) ≠ i := fun h => hi (by simp [← h])
        exact List.getElem?_set_ne hi'
    · have hguard : (0 : ℤ) ≤ b.lastSampleI + 1 := by omega
      have hpush : b.push v = ⟨b.data.set (b.lastSampleI + 1).toNat v, b.lastSampleI + 1⟩ := by
        simp only [SingleChannelRingBuffer.push, if_neg hc]
        rw [if_pos hguard]
      rw [hpush]
      have hlt : (b.lastSampleI + 1).toNat < b.data.length := by omega
      refine ⟨?_, ?_, ?_, ?_, ?_⟩
      · show (0 : ℤ) ≤ b.lastSampleI + 1
        omega
      · show b.lastSampleI + 1 < (k : ℤ)
        omega
      · show (b.data.set (b.lastSampleI + 1).toNat v).length = k
        rw [List.length_set, hlen]
      · exact List.getElem?_set_self hlt
      · intro i hi
        exact List.getElem?_set_ne (fun h => hi h.symm)
  · refine ⟨rfl, ?_, ?_⟩
    · simp only [SingleChannelRingBuffer.push, mkSingleChannelRingBuffer,
        List.length_replicate]
      rw [if_pos (by omega)]
    · simp only [SingleChannelRingBuffer.push, mkSingleChannelRingBuffer,
        List.length_replicate]
      rw [if_pos (by omega), if_pos (by omega)]
      show ((List.replicate k 0).set (0 : ℤ).toNat v)[0]? = some v
      rw [Int.toNat_zero, List.getElem?_set_self (by simpa using hk)]

/-- C9 witness: pushing `9` into the buffer `[5, 7]` with cursor 0 writes slot
1 and leaves slot 0 untouched. -/
theorem c9_push_frame_witness :
    (SingleChannelRingBuffer.push ⟨[5, 7], 0⟩ 9).data[
        (SingleChannelRingBuffer.push ⟨[5, 7], 0⟩ 9).lastSampleI.toNat]? = some 9
    ∧ (SingleChannelRingBuffer.push ⟨[5, 7], 0⟩ 9).data[0]?
        = (⟨[5, 7], 0⟩ : SingleChannelRingBuffer).data[0]? := by
  have h := c9_push_frame ⟨[5, 7], 0⟩ 9 2 (by decide) (by decide) (by decide) (by decide)
  exact ⟨h.1.2.2.2.1, h.1.2.2.2.2 0 (by decide)⟩

theorem pushAll_mid :
    ∀ (vs pre rest : List ℚ), pre ≠ [] → vs.length ≤ rest.length →
      SingleChannelRingBuffer.pushAll ⟨pre ++ rest, (pre.length : ℤ) - 1⟩ vs
        = ⟨(pre ++ vs) ++ List.drop vs.length rest,
            ((pre.length + vs.length : ℕ) : ℤ) - 1⟩ := by
  intro vs
  induction vs with
  | nil =>
    intro pre rest hpre hle
    simp [SingleChannelRingBuffer.pushAll]
  | cons v vs ih =>
    intro pre rest hpre hle
    cases rest with
    | nil => simp at hle
    | cons r rest2 =>
      rw [SingleChannelRingBuffer.pushAll, List.foldl_cons,
        ← SingleChannelRingBuffer.pushAll]
      have hpush : SingleChannelRingBuffer.push ⟨pre ++ r :: rest2, (pre.length : ℤ) - 1⟩ v
          = ⟨(pre ++ [v]) ++ rest2, ((pre ++ [v]).length : ℤ) - 1⟩ := by
        simp only [SingleChannelRingBuffer.push]
        have hcur : (pre.length : ℤ) - 1 + 1 = (pre.length : ℤ) := by ring
        rw [hcur]
        have hnotle : ¬ (((pre ++ r :: rest2).length : ℤ) ≤ (pre.length : ℤ)) := by
          simp only [List.length_append, List.length_cons]
          push_cast
          omega
        rw [if_neg hnotle, if_pos (Int.natCast_nonneg pre.length), Int.toNat_natCast,
          List.set_append, if_neg (lt_irrefl pre.length)]
        simp
      rw [hpush]
      have hrec := ih (pre ++ [v]) rest2 (by simp) (by simpa using hle)
      rw [hrec]
      simp only [List.length_append, List.length_cons, List.length_singleton,
        List.drop_succ_cons, List.append_assoc, List.singleton_append]
      congr 1
      simp only [List.length_nil]
      push_cast
      ring

theorem pushAll_fresh (k : ℕ) (vs : List ℚ) (hk : 0 < k) (hlen : vs.length = k) :
    (mkSingleChannelRingBuffer k).pushAll vs = ⟨vs, (k : ℤ) - 1⟩ := by
  cases vs with
  | nil =>
    rw [← hlen] at hk
    simp at hk
  | cons v vs2 =>
    have hk' : k = vs2.length + 1 := by simpa using hlen.symm
    subst hk'
    rw [SingleChannelRingBuffer.pushAll, List.foldl_cons,
      ← SingleChannelRingBuffer.pushAll]
    have hpush : (mkSingleChannelRingBuffer (vs2.length + 1)).push v
        = ⟨[v] ++ List.replicate vs2.length 0, (([v] : List ℚ).length : ℤ) - 1⟩ := by
      simp only [mkSingleChannelRingBuffer, SingleChannelRingBuffer.push,
        List.length_replicate]
      rw [if_pos (by push_cast; omega), if_pos (by omega), Int.toNat_zero,
        List.replicate_succ]
      rfl
    rw [hpush,
      pushAll_mid vs2 [v] (List.replicate vs2.length 0) (by simp) (by simp)]
    simp only [List.length_replicate, List.drop_replicate, Nat.sub_self,
      List.replicate_zero, List.append_nil, List.singleton_append,
      List.length_singleton]
    congr 1
    push_cast
    ring

/-- C4: pushing exactly `capacity` values `v₀ … v_{capacity−1}` in order into a
fresh ring buffer of capacity `k > 0` makes `getReverse (k-1)` return `v₀` and
`getReverse 0` return `v_{k-1}`. -/
theorem c4_ring_buffer_round_trip (k : ℕ) (vs : List ℚ) (hk : 0 < k)
    (hlen : vs.length = k) :
    ((mkSingleChannelRingBuffer k).pushAll vs).getReverse ((k : ℤ) - 1) = vs.head?
    ∧ ((mkSingleChannelRingBuffer k).pushAll vs).getReverse 0 = vs.getLast? := by
  rw [pushAll_fresh k vs hk hlen]
  have hne : (⟨vs, (k : ℤ) - 1⟩ : SingleChannelRingBuffer).data.length ≠ 0 := by
    simp only [hlen]
    omega
  constructor
  · rw [getReverse_pos_def _ _ hne]
    show (if 0 ≤ jsRem ((k : ℤ) - 1 - ((k : ℤ) - 1) + vs.length) vs.length
      then vs[(jsRem ((k : ℤ) - 1 - ((k : ℤ) - 1) + vs.length) vs.length).toNat]?
      else none) = vs.head?
    have e1 : (k : ℤ) - 1 - ((k : ℤ) - 1) + (vs.length : ℤ) = 1 * (vs.length : ℤ) := by
      ring
    rw [e1, jsRem_of_nonneg (by positivity), Int.mul_emod_left, if_pos le_rfl,
      Int.toNat_zero, ← List.head?_eq_getElem?]
  · rw [getReverse_pos_def _ _ hne]
    show (if 0 ≤ jsRem ((k : ℤ) - 1 - 0 + vs.length) vs.length
      then vs[(jsRem ((k : ℤ) - 1 - 0 + vs.length) vs.length).toNat]?
      else none) = vs.getLast?
    have e1 : (k : ℤ) - 1 - 0 + (vs.length : ℤ) = ((k : ℤ) - 1) + (vs.length : ℤ) * 1 := by
      ring
    have h0 : (0 : ℤ) ≤ (k : ℤ) - 1 - 0 + (vs.length : ℤ) := by
      rw [hlen]
      omega
    rw [e1, jsRem_of_nonneg (by rw [← e1]; exact h0), Int.add_mul_emod_self_left,
      hlen, Int.emod_eq_of_lt (by omega) (by omega)]
    have e2 : ((k : ℤ) - 1).toNat = k - 1 := by omega
    rw [if_pos (by omega), e2, List.getLast?_eq_getElem?, hlen]

/-- C4 witness: capacity 2, values `[3, 5]` — `getReverse 1` returns 3 and
`getReverse 0` returns 5. -/
theorem c4_ring_buffer_round_trip_witness :
    ((mkSingleChannelRingBuffer 2).pushAll [3, 5]).getReverse (((2 : ℕ) : ℤ) - 1)
        = ([3, 5] : List ℚ).head?
    ∧ ((mkSingleChannelRingBuffer 2).pushAll [3, 5]).getReverse 0
        = ([3, 5] : List ℚ).getLast? :=
  c4_ring_buffer_round_trip 2 [3, 5] (by decide) (by decide)

/-- C1: for every `process` call that completes normally (any block contents,
any state), the clamped running sum `_currWindowSquaresSum` is non-negative
after every sample step — and so is the pre-square-root value — and every
value written to the output channel is non-negative. -/
theorem c1_sum_and_output_nonneg :
    (∀ (smoothingWindowLengthSamples : ℤ) (st : VolumeFilterProcessorState) (mq : ℚ)
        (res : VolumeFilterProcessorState × ℚ),
        processSampleStep smoothingWindowLengthSamples st mq = some res →
        0 ≤ res.1.currWindowSquaresSum ∧ 0 ≤ res.2)
    ∧ (∀ (sampleRate smoothingWindowLength : ℚ) (input : List (List ℚ))
        (st : VolumeFilterProcessorState) (prevOutput : List ℝ)
        (st' : VolumeFilterProcessorState) (output : List ℝ),
        process sampleRate smoothingWindowLength input st prevOutput = some (st', output) →
        input ≠ [] → ∀ y ∈ output, 0 ≤ y) := by
  constructor
  · intro w st mq res h
    simp only [processSampleStep] at h
    split at h
    · exact absurd h (by simp)
    · rename_i hw
      split at h
      · exact absurd h (by simp)
      · rename_i leaving heq
        have h' := Option.some.inj h
        rw [← h']
        constructor
        · exact le_max_right _ _
        · refine div_nonneg (le_max_right _ _) ?_
          have hwpos : (0 : ℤ) < w := by omega
          exact_mod_cast hwpos.le
  · intro rate len input st prev st' out h hne
    simp only [process] at h
    rw [if_neg (by simpa using hne)] at h
    split at h
    · exact absurd h (by simp)
    · rename_i st2 presqrts heq
      have h' := Option.some.inj h
      have h2 : presqrts.map (fun q : ℚ => Real.sqrt (q : ℝ)) = out :=
        congrArg Prod.snd h'
      intro y hy
      rw [← h2] at hy
      simp only [List.mem_map] at hy
      obtain ⟨q, hq, rfl⟩ := hy
      exact Real.sqrt_nonneg _

/-- C1 witness: a concrete sample step (window 1 sample, mean square 9) yields
running sum 9 ≥ 0, and the corresponding `process` call writes the
non-negative output `√9`. -/
theorem c1_sum_and_output_nonneg_witness :
    (0 : ℚ) ≤ 9 ∧ (0 : ℝ) ≤ Real.sqrt ((9 : ℚ) : ℝ) := by
  have hstep : processSampleStep 1 ⟨⟨[0], 0⟩, 0⟩ 9 = some (⟨⟨[9], 0⟩, 9⟩, 9) := by
    norm_num [processSampleStep, SingleChannelRingBuffer.getReverse, jsRem,
      SingleChannelRingBuffer.push, max_def]
  constructor
  · exact (c1_sum_and_output_nonneg.1 1 ⟨⟨[0], 0⟩, 0⟩ 9 (⟨⟨[9], 0⟩, 9⟩, 9) hstep).1
  · have hw : windowLengthNumSecondsToSamples 1 1 = 1 := by
      norm_num [windowLengthNumSecondsToSamples, jsRound]
    have hms : meanSquareAt [[3]] 0 = some 9 := by
      have h1 : meanSquareAt [[3]] 0
          = some ((List.map (fun s : ℚ => s ^ 2) [3]).sum
              / (([[3]] : List (List ℚ)).length : ℚ)) := rfl
      rw [h1]
      norm_num
    have hloop : processLoop 1 [[3]] ⟨⟨[0], 0⟩, 0⟩ [0] = some (⟨⟨[9], 0⟩, 9⟩, [9]) := by
      simp [processLoop, hms, hstep]
    have hrange : List.range (([[3]] : List (List ℚ)).headD []).length = [0] := rfl
    have hproc : process 1 1 [[3]] ⟨⟨[0], 0⟩, 0⟩ []
        = some (⟨⟨[9], 0⟩, 9⟩, [Real.sqrt ((9 : ℚ) : ℝ)]) := by
      simp only [process, hw]
      rw [if_neg (by simp), hrange, hloop]
      simp
    exact c1_sum_and_output_nonneg.2 1 1 [[3]] ⟨⟨[0], 0⟩, 0⟩ [] ⟨⟨[9], 0⟩, 9⟩
      [Real.sqrt ((9 : ℚ) : ℝ)] hproc (by simp) (Real.sqrt ((9 : ℚ) : ℝ)) (by simp)

theorem list_mapM_getElem_replicate (C n : ℕ) (v : ℚ) (i : ℕ) (hi : i < n) :
    List.mapM (fun channel : List ℚ => channel[i]?)
      (List.replicate C (List.replicate n v)) = some (List.replicate C v) := by
  induction C with
  | zero => rfl
  | succ C ih =>
    rw [List.replicate_succ, List.mapM_cons, List.getElem?_replicate, if_pos hi, ih]
    rfl

theorem meanSquareAt_const (C n : ℕ) (v : ℚ) (i : ℕ) (hC : 0 < C) (hi : i < n) :
    meanSquareAt (List.replicate C (List.replicate n v)) i = some (v ^ 2) := by
  rw [meanSquareAt, list_mapM_getElem_replicate C n v i hi, Option.map_some']
  congr 1
  rw [List.map_replicate, List.sum_replicate, List.length_replicate, nsmul_eq_mul]
  exact mul_div_cancel_left₀ _ (Nat.cast_ne_zero.mpr hC.ne')

theorem push_replicate_cursor (k : ℕ) (c : ℤ) (v : ℚ) (h0 : 0 ≤ c) (h1 : c < (k : ℤ)) :
    SingleChannelRingBuffer.push ⟨List.replicate k v, c⟩ v
      = ⟨List.replicate k v, if (k : ℤ) ≤ c + 1 then 0 else c + 1⟩ := by
  simp only [SingleChannelRingBuffer.push, List.length_replicate]
  by_cases hc : (k : ℤ) ≤ c + 1
  · rw [if_pos hc, if_pos le_rfl, Int.toNat_zero, List.set_replicate_self]
  · rw [if_neg hc, if_pos (by omega), List.set_replicate_self]

theorem getReverse_replicate (k : ℕ) (c : ℤ) (v : ℚ) (depth : ℤ) (hk : 0 < k)
    (h0 : 0 ≤ c - depth + (k : ℤ)) :
    SingleChannelRingBuffer.getReverse ⟨List.replicate k v, c⟩ depth = some v := by
  rw [getReverse_pos_def _ _ (by simpa using hk.ne')]
  simp only [List.length_replicate]
  rw [jsRem_of_nonneg h0]
  have hkz : ((k : ℤ)) ≠ 0 := by exact_mod_cast hk.ne'
  have hmod0 : 0 ≤ (c - depth + (k : ℤ)) % (k : ℤ) := Int.emod_nonneg _ hkz
  have hmodlt : (c - depth + (k : ℤ)) % (k : ℤ) < (k : ℤ) :=
    Int.emod_lt_of_pos _ (by exact_mod_cast hk)
  rw [if_pos hmod0, List.getElem?_replicate, if_pos (by omega)]

theorem processLoop_steady (k : ℕ) (w : ℤ) (n : ℕ) (hw : 0 < w) (hwk : w ≤ (k : ℤ)) :
    ∀ (l : List ℕ) (c : ℤ), (∀ i ∈ l, i < n) → 0 ≤ c → c < (k : ℤ) →
      ∃ c', 0 ≤ c' ∧ c' < (k : ℤ) ∧
        processLoop w [List.replicate n 1] ⟨⟨List.replicate k 1, c⟩, (w : ℚ)⟩ l
          = some (⟨⟨List.replicate k 1, c'⟩, (w : ℚ)⟩, List.replicate l.length 1) := by
  intro l
  induction l with
  | nil =>
    intro c _ h0 h1
    exact ⟨c, h0, h1, by simp [processLoop]⟩
  | cons i rest ih =>
    intro c hmem h0 h1
    have hkpos : (0 : ℤ) < (k : ℤ) := lt_of_lt_of_le hw hwk
    have hms : meanSquareAt [List.replicate n 1] i = some 1 := by
      have h := meanSquareAt_const 1 n 1 i (by omega) (hmem i (by simp))
      simpa using h
    have hleave : SingleChannelRingBuffer.getReverse ⟨List.replicate k 1, c⟩ (w - 1)
        = some 1 :=
      getReverse_replicate k c 1 (w - 1) (by exact_mod_cast hkpos) (by omega)
    have hstep : processSampleStep w ⟨⟨List.replicate k 1, c⟩, (w : ℚ)⟩ 1
        = some (⟨⟨List.replicate k 1, if (k : ℤ) ≤ c + 1 then 0 else c + 1⟩, (w : ℚ)⟩, 1) := by
      simp only [processSampleStep, if_neg (by omega : ¬ w ≤ 0), hleave]
      rw [push_replicate_cursor k c 1 h0 h1]
      have hsum : (w : ℚ) - 1 + 1 = (w : ℚ) := by ring
      rw [hsum, max_eq_left (by exact_mod_cast hw.le),
        div_self (by exact_mod_cast hw.ne')]
    obtain ⟨c', hc0, hc1, hrest⟩ := ih (if (k : ℤ) ≤ c + 1 then 0 else c + 1)
      (fun j hj => hmem j (by simp [hj])) (by split <;> omega) (by split <;> omega)
    refine ⟨c', hc0, hc1, ?_⟩
    simp only [processLoop, hms, hstep, hrest]
    simp [List.replicate_succ]

/-- C2: steady state with a fully warmed window — if every ring-buffer slot
holds `1.0`, the running sum equals `windowSamples` (with
`0 < windowSamples ≤ capacity`), then processing a single-channel block of any
length with constant value `1.0` writes the output value `1.0` exactly for
every sample of the block. -/
theorem c2_steady_state_unit_signal
    (sampleRate smoothingWindowLength : ℚ) (k n : ℕ) (c : ℤ) (prevOutput : List ℝ)
    (hw : 0 < windowLengthNumSecondsToSamples sampleRate smoothingWindowLength)
    (hwk : windowLengthNumSecondsToSamples sampleRate smoothingWindowLength ≤ (k : ℤ))
    (hc0 : 0 ≤ c) (hc1 : c < (k : ℤ)) :
    (process sampleRate smoothingWindowLength [List.replicate n 1]
        ⟨⟨List.replicate k 1, c⟩,
          ((windowLengthNumSecondsToSamples sampleRate smoothingWindowLength : ℤ) : ℚ)⟩
        prevOutput).map Prod.snd
      = some (List.replicate n (1 : ℝ)) := by
  obtain ⟨c', _, _, hloop⟩ := processLoop_steady k
    (windowLengthNumSecondsToSamples sampleRate smoothingWindowLength) n hw hwk
    (List.range n) c (fun i hi => List.mem_range.mp hi) hc0 hc1
  simp only [process]
  rw [if_neg (by simp)]
  simp only [List.headD_cons, List.length_replicate]
  rw [hloop]
  simp [List.map_replicate, Real.sqrt_one]

/-- C2 witness: capacity 2, window 2 samples (`sampleRate = 1`,
`smoothingWindowLength = 2`), buffer all ones, running sum 2: a 3-sample
constant-1 single-channel block outputs exactly `[1, 1, 1]`. -/
theorem c2_steady_state_unit_signal_witness :
    (process 1 2 [List.replicate 3 1]
        ⟨⟨List.replicate 2 1, 1⟩, ((windowLengthNumSecondsToSamples 1 2 : ℤ) : ℚ)⟩
        []).map Prod.snd
      = some (List.replicate 3 (1 : ℝ)) :=
  c2_steady_state_unit_signal 1 2 2 3 1 []
    (by norm_num [windowLengthNumSecondsToSamples, jsRound])
    (by norm_num [windowLengthNumSecondsToSamples, jsRound])
    (by norm_num) (by norm_num)

theorem getReverse_partial_zero (k j : ℕ) (q : ℚ) (hjk : j < k) :
    SingleChannelRingBuffer.getReverse
      ⟨List.replicate j q ++ List.replicate (k - j) 0,
        if j = 0 then (k : ℤ) - 1 else (j : ℤ) - 1⟩ ((k : ℤ) - 1) = some 0 := by
  have hlen : (List.replicate j q ++ List.replicate (k - j) (0 : ℚ)).length = k := by
    simp
    omega
  rw [getReverse_pos_def _ _ (by rw [hlen]; omega)]
  rw [hlen]
  by_cases hj : j = 0
  · subst hj
    rw [if_pos rfl]
    have e : (k : ℤ) - 1 - ((k : ℤ) - 1) + (k : ℤ) = 1 * (k : ℤ) := by ring
    rw [e, jsRem_of_nonneg (by positivity), Int.mul_emod_left, if_pos le_rfl,
      Int.toNat_zero]
    simp only [List.replicate_zero, List.nil_append, List.getElem?_replicate]
    rw [if_pos (by omega)]
  · rw [if_neg hj]
    have e : (j : ℤ) - 1 - ((k : ℤ) - 1) + (k : ℤ) = (j : ℤ) := by ring
    rw [e, jsRem_of_nonneg (by positivity),
      Int.emod_eq_of_lt (by positivity) (by exact_mod_cast hjk), Int.toNat_natCast,
      if_pos (by positivity),
      List.getElem?_append_right (by simp)]
    simp only [List.length_replicate, Nat.sub_self, List.getElem?_replicate]
    rw [if_pos (by omega)]

theorem push_partial_step (k j : ℕ) (q : ℚ) (hjk : j < k) :
    SingleChannelRingBuffer.push
      ⟨List.replicate j q ++ List.replicate (k - j) 0,
        if j = 0 then (k : ℤ) - 1 else (j : ℤ) - 1⟩ q
      = ⟨List.replicate (j + 1) q ++ List.replicate (k - (j + 1)) 0, (j : ℤ)⟩ := by
  have hlen : (List.replicate j q ++ List.replicate (k - j) (0 : ℚ)).length = k := by
    simp
    omega
  have hsplit : List.replicate (k - j) (0 : ℚ) = 0 :: List.replicate (k - (j + 1)) 0 := by
    have e : k - j = (k - (j + 1)) + 1 := by omega
    rw [e, List.replicate_succ]
  by_cases hj : j = 0
  · subst hj
    rw [if_pos rfl]
    simp only [SingleChannelRingBuffer.push]
    rw [hlen, if_pos (show (k : ℤ) ≤ (k : ℤ) - 1 + 1 by omega), if_pos le_rfl,
      Int.toNat_zero]
    simp only [List.replicate_zero, List.nil_append, hsplit]
    simp [List.replicate_succ]
  · rw [if_neg hj]
    simp only [SingleChannelRingBuffer.push]
    have e1 : (j : ℤ) - 1 + 1 = (j : ℤ) := by ring
    rw [hlen, e1, if_neg (by omega : ¬ (k : ℤ) ≤ (j : ℤ)), if_pos (by positivity),
      Int.toNat_natCast, hsplit]
    have hset : (List.replicate j q ++ 0 :: List.replicate (k - (j + 1)) (0 : ℚ)).set j q
        = List.replicate j q ++ q :: List.replicate (k - (j + 1)) 0 := by
      rw [List.set_append, if_neg (by simp), List.length_replicate, Nat.sub_self]
      rfl
    rw [hset]
    simp [List.replicate_succ', List.append_assoc]

theorem processSampleStep_transient (k j : ℕ) (q : ℚ) (hq : 0 ≤ q) (hjk : j < k) :
    processSampleStep (k : ℤ)
      ⟨⟨List.replicate j q ++ List.replicate (k - j) 0,
          if j = 0 then (k : ℤ) - 1 else (j : ℤ) - 1⟩, (j : ℚ) * q⟩ q
      = some (⟨⟨List.replicate (j + 1) q ++ List.replicate (k - (j + 1)) 0, (j : ℤ)⟩,
          ((j : ℚ) + 1) * q⟩, ((j : ℚ) + 1) * q / ((k : ℤ) : ℚ)) := by
  simp only [processSampleStep, if_neg (show ¬ (k : ℤ) ≤ 0 by omega),
    getReverse_partial_zero k j q hjk]
  rw [push_partial_step k j q hjk]
  have hsum : (j : ℚ) * q - 0 + q = ((j : ℚ) + 1) * q := by ring
  rw [hsum, max_eq_left (mul_nonneg (by positivity) hq)]

theorem processLoop_transient (k n C : ℕ) (v : ℚ) (hC : 0 < C) :
    ∀ (l : List ℕ) (j : ℕ), (∀ i ∈ l, i < n) → j + l.length ≤ k →
      processLoop (k : ℤ) (List.replicate C (List.replicate n v))
          ⟨⟨List.replicate j (v ^ 2) ++ List.replicate (k - j) 0,
              if j = 0 then (k : ℤ) - 1 else (j : ℤ) - 1⟩, (j : ℚ) * v ^ 2⟩ l
        = some (⟨⟨List.replicate (j + l.length) (v ^ 2)
              ++ List.replicate (k - (j + l.length)) 0,
              if j + l.length = 0 then (k : ℤ) - 1 else ((j + l.length : ℕ) : ℤ) - 1⟩,
            ((j + l.length : ℕ) : ℚ) * v ^ 2⟩,
            (List.range' (j + 1) l.length).map
              (fun m : ℕ => (m : ℚ) * v ^ 2 / ((k : ℤ) : ℚ))) := by
  intro l
  induction l with
  | nil =>
    intro j _ _
    simp [processLoop]
  | cons i rest ih =>
    intro j hmem hlen
    have hms := meanSquareAt_const C n v i hC (hmem i (by simp))
    have hstep := processSampleStep_transient k j (v ^ 2) (sq_nonneg v)
      (by simp at hlen; omega)
    have hcast1 : ((j : ℚ) + 1) * v ^ 2 = (((j + 1 : ℕ)) : ℚ) * v ^ 2 := by
      push_cast
      ring
    have hcursor : (j : ℤ) = if j + 1 = 0 then (k : ℤ) - 1 else ((j + 1 : ℕ) : ℤ) - 1 := by
      rw [if_neg (Nat.succ_ne_zero j)]
      push_cast
      ring
    have hrest := ih (j + 1) (fun x hx => hmem x (by simp [hx])) (by simp at hlen; omega)
    rw [← hcursor, ← hcast1] at hrest
    simp only [processLoop, hms, hstep, hrest]
    simp only [List.length_cons]
    have hJ2 : j + (rest.length + 1) = j + 1 + rest.length := by omega
    rw [hJ2, List.range'_succ, List.map_cons, hcast1]

theorem chain'_lt_map_range' (g : ℕ → ℝ) (hg : ∀ m, g m < g (m + 1)) :
    ∀ (len s : ℕ), List.Chain' (fun a b : ℝ => a < b) ((List.range' s len).map g) := by
  intro len
  induction len with
  | zero =>
    intro s
    simp
  | succ len ih =>
    intro s
    rw [List.range'_succ]
    cases len with
    | zero => simp
    | succ len2 =>
      rw [List.range'_succ, List.map_cons, List.map_cons, List.chain'_cons]
      refine ⟨hg s, ?_⟩
      have h := ih (s + 1)
      rw [List.range'_succ, List.map_cons] at h
      exact h

/-- C3: concrete transient-fill scenario — `sampleRate = 48000`,
`maxWindowLength = windowLength = 0.02` (so `windowSamples = 960` and the ring
buffer has capacity 960), buffer and running sum warmed entirely with 0;
processing one block of 128 samples of constant value `0.5` on 2 channels
produces 128 output samples that strictly increase from each sample to the
next, none exceeding `sqrt(0.25) = 0.5`. -/
theorem c3_transient_fill_scenario :
    VolumeFilterNode.create 48000 (2 / 100) (2 / 100)
        = some ⟨mkSingleChannelRingBuffer 960, 0⟩
    ∧ ∃ (st' : VolumeFilterProcessorState) (out : List ℝ),
        process 48000 (2 / 100) (List.replicate 2 (List.replicate 128 (1 / 2)))
            ⟨(mkSingleChannelRingBuffer 960).pushAll (List.replicate 960 0), 0⟩ []
          = some (st', out)
        ∧ out.length = 128
        ∧ List.Chain' (fun a b : ℝ => a < b) out
        ∧ ∀ y ∈ out, y ≤ 1 / 2 := by
  have hw : windowLengthNumSecondsToSamples 48000 (2 / 100) = 960 := by
    norm_num [windowLengthNumSecondsToSamples, jsRound]
  constructor
  · rw [VolumeFilterNode.create, VolumeFilterProcessor.initState]
    simp only [Option.getD_none, hw]
    norm_num
    rfl
  · have hwarm : (mkSingleChannelRingBuffer 960).pushAll (List.replicate 960 0)
        = ⟨List.replicate 960 0, (960 : ℤ) - 1⟩ := by
      exact pushAll_fresh 960 _ (by norm_num) (by rw [List.length_replicate])
    have hloop := processLoop_transient 960 128 2 (1 / 2 : ℚ) (by norm_num)
      (List.range 128) 0 (fun i hi => List.mem_range.mp hi)
      (by rw [List.length_range]; omega)
    simp only [List.replicate_zero, List.nil_append, Nat.sub_zero, Nat.zero_add,
      Nat.cast_zero, zero_mul, List.length_range, Nat.cast_ofNat, zero_add,
      reduceIte] at hloop
    have hproc : process 48000 (2 / 100) (List.replicate 2 (List.replicate 128 (1 / 2)))
        ⟨(mkSingleChannelRingBuffer 960).pushAll (List.replicate 960 0), 0⟩ []
        = some (⟨⟨List.replicate 128 ((1 / 2 : ℚ) ^ 2) ++ List.replicate (960 - 128) 0,
            if (128 : ℕ) = 0 then (960 : ℤ) - 1 else (128 : ℤ) - 1⟩,
            (128 : ℚ) * (1 / 2) ^ 2⟩,
          (List.range' 1 128).map
            (fun m : ℕ => Real.sqrt ((m : ℝ) * (1 / 2) ^ 2 / 960))) := by
      simp only [process, hw]
      rw [if_neg (by simp), hwarm]
      have hhead : ((List.replicate 2 (List.replicate 128 ((1 : ℚ) / 2))).headD []).length
          = 128 := by
        rw [show (2 : ℕ) = 1 + 1 from rfl, List.replicate_succ, List.headD_cons,
          List.length_replicate]
      rw [hhead, hloop]
      refine congrArg some (congrArg₂ Prod.mk rfl ?_)
      rw [List.map_map]
      refine List.map_congr_left ?_
      intro m hm
      simp only [Function.comp_apply]
      apply congrArg
      push_cast
      ring
    refine ⟨_, _, hproc, ?_, ?_, ?_⟩
    · rw [List.length_map, List.length_range']
    · apply chain'_lt_map_range'
      intro m
      apply Real.sqrt_lt_sqrt
      · positivity
      · push_cast
        ring_nf
        nlinarith [sq_nonneg (1 : ℝ)]
    · intro y hy
      simp only [List.mem_map] at hy
      obtain ⟨m, hm, rfl⟩ := hy
      rw [List.mem_range'] at hm
      obtain ⟨i, hi, rfl⟩ := hm
      have hiR : (i : ℝ) ≤ 127 := by
        have hi127 : i ≤ 127 := by omega
        exact_mod_cast hi127
      have hmle : ((1 + 1 * i : ℕ) : ℝ) ≤ 128 := by
        push_cast
        linarith
      have harg : ((1 + 1 * i : ℕ) : ℝ) * (1 / 2) ^ 2 / 960 ≤ (1 / 2 : ℝ) ^ 2 := by
        nlinarith
      calc Real.sqrt (((1 + 1 * i : ℕ) : ℝ) * (1 / 2) ^ 2 / 960)
          ≤ Real.sqrt ((1 / 2 : ℝ) ^ 2) := Real.sqrt_le_sqrt harg
        _ = 1 / 2 := Real.sqrt_sq (by norm_num)
